import Mathlib

/-!
Verification of the qdrant-cloud-buf-plugins rule checkers.

This file gives a shallow embedding, in Lean, of the rule-evaluation logic of
the three buf plugins of the repository:

- the permission breaking-change classifier
  (cmd/buf-plugin-permissions-breaking/main.go),
- the required-fields lint rules (cmd/buf-plugin-required-fields/main.go),
- the required-method-options lint rule (checkMethodOptions, the variant with
  the requires_authentication waiver and the account_id_expression conflict
  check).

Protobuf descriptors are supplied by the external host; here a method or a
message is modelled by exactly the data the checkers read from it: its name,
its declared field names, and the presence plus typed value of each custom
option the code inspects. Go byte strings are modelled by Lean String, with
the helper functions on the underlying character lists; for valid UTF-8 the
byte-wise order used by sort.Strings coincides with the code-point order used
here.
-/

/-! ## Go string helpers

Executable models of the functions from the Go strings package used by the
checkers: HasPrefix, HasSuffix, TrimPrefix and TrimSpace. They operate on the
character list underlying a String so that concrete instances reduce in the
kernel. -/

/-- Model of Go strings.HasPrefix. -/
def strHasPrefix (s pre : String) : Bool :=
  pre.data.isPrefixOf s.data

/-- Model of Go strings.HasSuffix. -/
def strHasSuffix (s suf : String) : Bool :=
  suf.data.isSuffixOf s.data

/-- Model of Go strings.TrimPrefix: removes the leading occurrence of pre,
if present. -/
def strTrimPrefix (s pre : String) : String :=
  if strHasPrefix s pre then String.mk (s.data.drop pre.data.length) else s

/-- Model of Go strings.TrimSpace: removes leading and trailing whitespace. -/
def trimSpace (s : String) : String :=
  String.mk (((s.data.dropWhile Char.isWhitespace).reverse.dropWhile
    Char.isWhitespace).reverse)

/-- Lexicographic comparison of character lists by code point, the order Go
sort.Strings uses on (UTF-8) strings. -/
def lexLe : List Char → List Char → Bool
  | [], _ => true
  | _ :: _, [] => false
  | a :: as, b :: bs =>
    if a.toNat < b.toNat then true
    else if b.toNat < a.toNat then false
    else lexLe as bs

/-- The order on strings induced by lexLe. -/
def stringLe (a b : String) : Bool :=
  lexLe a.data b.data

/-- stringLe as a binary relation, for use with List.insertionSort and
List.Sorted. -/
def stringLeRel (a b : String) : Prop :=
  stringLe a b = true

instance : DecidableRel stringLeRel := fun a b =>
  inferInstanceAs (Decidable (stringLe a b = true))

theorem lexLe_total (as bs : List Char) : lexLe as bs = true ∨ lexLe bs as = true := by
  induction as generalizing bs with
  | nil => left; rfl
  | cons a as ih =>
    cases bs with
    | nil => right; rfl
    | cons b bs =>
      by_cases hab : a.toNat < b.toNat
      · left; simp [lexLe, hab]
      · by_cases hba : b.toNat < a.toNat
        · right; simp [lexLe, hba]
        · rcases ih bs with h | h
          · left; simp [lexLe, hab, hba, h]
          · right; simp [lexLe, hab, hba, h]

theorem lexLe_trans (as bs cs : List Char) (h1 : lexLe as bs = true)
    (h2 : lexLe bs cs = true) : lexLe as cs = true := by
  induction as generalizing bs cs with
  | nil => rfl
  | cons a as ih =>
    cases bs with
    | nil => simp [lexLe] at h1
    | cons b bs =>
      cases cs with
      | nil => simp [lexLe] at h2
      | cons c cs =>
        simp only [lexLe] at h1 h2 ⊢
        by_cases hab : a.toNat < b.toNat
        · by_cases hbc : b.toNat < c.toNat
          · simp [show a.toNat < c.toNat by omega]
          · by_cases hcb : c.toNat < b.toNat
            · simp [hbc, hcb] at h2
            · simp [show a.toNat < c.toNat by omega]
        · by_cases hba : b.toNat < a.toNat
          · simp [hab, hba] at h1
          · by_cases hbc : b.toNat < c.toNat
            · simp [show a.toNat < c.toNat by omega]
            · by_cases hcb : c.toNat < b.toNat
              · simp [hbc, hcb] at h2
              · have hac : ¬ a.toNat < c.toNat := by omega
                have hca : ¬ c.toNat < a.toNat := by omega
                rw [if_neg hab, if_neg hba] at h1
                rw [if_neg hbc, if_neg hcb] at h2
                rw [if_neg hac, if_neg hca]
                exact ih bs cs h1 h2

instance : IsTotal String stringLeRel :=
  ⟨fun a b => lexLe_total a.data b.data⟩

instance : IsTrans String stringLeRel :=
  ⟨fun a b c => lexLe_trans a.data b.data c.data⟩

namespace PermissionsBreaking

/-! ## Permission breaking-change classifier

Embedding of cmd/buf-plugin-permissions-breaking/main.go. -/

/-- PermissionConfig holds the permission configuration for a method
(struct PermissionConfig of main.go). -/
structure PermissionConfig where
  Permissions : List String
  RequiresAll : Bool
deriving DecidableEq

/-- permissionsEqual of main.go: length check, then element-wise equality. -/
def permissionsEqual (a b : List String) : Bool :=
  if a.length ≠ b.length then false
  else (a.zip b).all (fun p => p.1 == p.2)

/-- hasRemovedPermissions of main.go: true when some element of previous is
absent from current (the Go code materialises current as a hash set; here the
set membership is list membership). -/
def hasRemovedPermissions (previous current : List String) : Bool :=
  previous.any (fun perm => ! current.contains perm)

/-- configsEqual of main.go. -/
def configsEqual (a b : PermissionConfig) : Bool :=
  a.RequiresAll == b.RequiresAll && permissionsEqual a.Permissions b.Permissions

/-- isBreakingChange of main.go, with the same branch order as the source. -/
def isBreakingChange (against current : PermissionConfig) : Bool :=
  if configsEqual against current then false
  else if against.RequiresAll ≠ current.RequiresAll then
    if against.RequiresAll = true ∧ current.RequiresAll = false then false
    else true
  else if against.Permissions.length = 0 ∧ 0 < current.Permissions.length then true
  else if 0 < against.Permissions.length ∧ current.Permissions.length = 0 then true
  else if 0 < against.Permissions.length ∧ 0 < current.Permissions.length then
    if against.RequiresAll then ! permissionsEqual against.Permissions current.Permissions
    else hasRemovedPermissions against.Permissions current.Permissions
  else false

theorem permissionsEqual_iff (a b : List String) :
    permissionsEqual a b = true ↔ a = b := by
  induction a generalizing b with
  | nil =>
    cases b with
    | nil => simp [permissionsEqual]
    | cons y ys => simp [permissionsEqual]
  | cons x xs ih =>
    cases b with
    | nil => simp [permissionsEqual]
    | cons y ys =>
      by_cases hlen : xs.length = ys.length
      · simp only [permissionsEqual, List.length_cons, hlen, ne_eq,
          not_true_eq_false, if_false, List.zip_cons_cons, List.all_cons,
          Bool.and_eq_true, beq_iff_eq] at *
        constructor
        · rintro ⟨hxy, hall⟩
          have := (ih ys).mp (by simp [permissionsEqual, hlen, hall])
          simp [hxy, this]
        · rintro h
          injection h with h1 h2
          subst h1; subst h2
          refine ⟨rfl, ?_⟩
          have := (ih xs).mpr rfl
          simpa [permissionsEqual] using this
      · have : ¬ (x :: xs = y :: ys) := by
          intro h; injection h with h1 h2; exact hlen (by rw [h2])
        simp only [permissionsEqual, List.length_cons, this, iff_false]
        intro hcon
        have : (xs.length = ys.length) := by
          by_contra hne
          simp [show ¬ (xs.length + 1 = ys.length + 1) by omega] at hcon
        exact hlen this

theorem hasRemovedPermissions_iff (previous current : List String) :
    hasRemovedPermissions previous current = true ↔
      ∃ p ∈ previous, p ∉ current := by
  simp [hasRemovedPermissions, List.any_eq_true]

theorem configsEqual_iff (a b : PermissionConfig) :
    configsEqual a b = true ↔ a = b := by
  cases a with
  | mk pa ra =>
    cases b with
    | mk pb rb =>
      simp [configsEqual, permissionsEqual_iff, PermissionConfig.mk.injEq,
        and_comm]

/-- Claim C3: two configurations with the same RequiresAll flag and the same
permission list are never classified as breaking; in particular classifying a
configuration against itself is never breaking. -/
theorem c3_identical_configs_not_breaking :
    (∀ against current : PermissionConfig,
      against.RequiresAll = current.RequiresAll →
      against.Permissions = current.Permissions →
      isBreakingChange against current = false) ∧
    (∀ config : PermissionConfig, isBreakingChange config config = false) := by
  have hmain : ∀ against current : PermissionConfig,
      against.RequiresAll = current.RequiresAll →
      against.Permissions = current.Permissions →
      isBreakingChange against current = false := by
    intro against current hra hp
    have heq : against = current := by
      cases against; cases current
      simp_all
    have : configsEqual against current = true := (configsEqual_iff _ _).mpr heq
    simp [isBreakingChange, this]
  exact ⟨hmain, fun config => hmain config config rfl rfl⟩

/-- Witness for C3 at a concrete configuration. -/
theorem c3_witness :
    isBreakingChange ⟨["read:test"], true⟩ ⟨["read:test"], true⟩ = false :=
  c3_identical_configs_not_breaking.1 ⟨["read:test"], true⟩ ⟨["read:test"], true⟩
    rfl rfl

/-- Claim C2: when the RequiresAll flags differ, the classification depends
only on the direction of the flag change: AND to OR is never breaking, OR to
AND is always breaking, whatever the permission lists (empty ones included). -/
theorem c2_requiresAll_change :
    ∀ against current : PermissionConfig,
      (against.RequiresAll = true → current.RequiresAll = false →
        isBreakingChange against current = false) ∧
      (against.RequiresAll = false → current.RequiresAll = true →
        isBreakingChange against current = true) := by
  intro against current
  constructor
  · intro ha hc
    have hne : configsEqual against current = false := by
      simp [configsEqual, ha, hc]
    simp [isBreakingChange, hne, ha, hc]
  · intro ha hc
    have hne : configsEqual against current = false := by
      simp [configsEqual, ha, hc]
    simp [isBreakingChange, hne, ha, hc]

/-- Witness for C2: AND to OR with a permission change is not breaking, OR to
AND with an empty current permission set is breaking. -/
theorem c2_witness :
    isBreakingChange ⟨["read:test"], true⟩ ⟨[], false⟩ = false ∧
    isBreakingChange ⟨["read:test"], false⟩ ⟨[], true⟩ = true :=
  ⟨(c2_requiresAll_change ⟨["read:test"], true⟩ ⟨[], false⟩).1 rfl rfl,
   (c2_requiresAll_change ⟨["read:test"], false⟩ ⟨[], true⟩).2 rfl rfl⟩

/-- Claim C1: classification when the RequiresAll flag is unchanged. The
hypotheses that both permission lists are sorted reflect the PermissionConfig
data-model invariant (getMethodPermissionConfig always produces sorted
lists). -/
theorem c1_same_requiresAll_classification
    (against current : PermissionConfig)
    (hra : against.RequiresAll = current.RequiresAll)
    (hs1 : List.Sorted stringLeRel against.Permissions)
    (hs2 : List.Sorted stringLeRel current.Permissions) :
    (against.Permissions = [] → current.Permissions ≠ [] →
      isBreakingChange against current = true) ∧
    (against.Permissions ≠ [] → current.Permissions = [] →
      isBreakingChange against current = true) ∧
    (against.Permissions ≠ [] → current.Permissions ≠ [] →
      against.RequiresAll = true →
      (isBreakingChange against current = true ↔
        against.Permissions ≠ current.Permissions)) ∧
    (against.Permissions ≠ [] → current.Permissions ≠ [] →
      against.RequiresAll = false →
      (isBreakingChange against current = true ↔
        ∃ p ∈ against.Permissions, p ∉ current.Permissions)) := by
  have hCEfalse : against.Permissions ≠ current.Permissions →
      configsEqual against current = false := by
    intro hne
    apply Bool.eq_false_iff.mpr
    intro h
    exact hne (congrArg PermissionConfig.Permissions ((configsEqual_iff _ _).mp h))
  have hCEtrue : against.Permissions = current.Permissions →
      configsEqual against current = true := by
    intro he
    refine (configsEqual_iff _ _).mpr ?_
    cases against; cases current; simp_all
  refine ⟨?_, ?_, ?_, ?_⟩
  · intro ha hc
    have hne : against.Permissions ≠ current.Permissions := by
      rw [ha]; exact fun h => hc h.symm
    simp [isBreakingChange, hCEfalse hne, hra, ha, List.length_pos.mpr hc]
  · intro ha hc
    have hne : against.Permissions ≠ current.Permissions := fun h =>
      ha (h.trans hc)
    simp [isBreakingChange, hCEfalse hne, hra, hc, List.length_pos.mpr ha]
  · intro ha hc hr
    by_cases heq : against.Permissions = current.Permissions
    · simp [isBreakingChange, hCEtrue heq, heq]
    · have hrc : current.RequiresAll = true := hra.symm.trans hr
      have hpe : permissionsEqual against.Permissions current.Permissions = false := by
        apply Bool.eq_false_iff.mpr
        intro h
        exact heq ((permissionsEqual_iff _ _).mp h)
      simp [isBreakingChange, hCEfalse heq, hra, hr, hrc, List.length_eq_zero,
        ha, hc, List.length_pos.mpr ha, List.length_pos.mpr hc, hpe, heq]
  · intro ha hc hr
    by_cases heq : against.Permissions = current.Permissions
    · simp only [isBreakingChange, hCEtrue heq, if_true, Bool.false_eq_true,
        false_iff]
      rintro ⟨p, hp, hnp⟩
      exact hnp (heq ▸ hp)
    · have hrc : current.RequiresAll = false := hra.symm.trans hr
      simp [isBreakingChange, hCEfalse heq, hra, hr, hrc, List.length_eq_zero,
        ha, hc, List.length_pos.mpr ha, List.length_pos.mpr hc]
      exact hasRemovedPermissions_iff _ _

/-- Witness for C1: removing a permission under AND logic is breaking. -/
theorem c1_witness :
    isBreakingChange ⟨["read:test", "write:test"], true⟩ ⟨["read:test"], true⟩
      = true := by
  have h := c1_same_requiresAll_classification
    ⟨["read:test", "write:test"], true⟩ ⟨["read:test"], true⟩ rfl
    (by decide) (by decide)
  exact (h.2.2.1 (by decide) (by decide) rfl).mpr (by decide)

/-! ## Extraction of the permission configuration from a method descriptor -/

/-- The two custom options of a method descriptor read by
getMethodPermissionConfig: the presence and typed value of
qdrant.cloud.common.v1.permissions (a string list) and of
qdrant.cloud.common.v1.requires_all_permissions (a bool). A field holds none
exactly when proto.HasExtension is false for that option. -/
structure MethodOptionsModel where
  permissions : Option (List String)
  requiresAllPermissions : Option Bool

/-- getMethodPermissionConfig of main.go: the raw permission entries are
trimmed, entries that are empty after trimming are dropped (the append-only
loop of the source is the map-filter below), and the result is sorted with
sort.Strings; requires_all_permissions defaults to true when the option is
absent. -/
def getMethodPermissionConfig (options : MethodOptionsModel) : PermissionConfig :=
  let permissions : List String :=
    match options.permissions with
    | some permissionsSlice =>
        List.insertionSort stringLeRel
          ((permissionsSlice.map trimSpace).filter (fun perm => perm ≠ ""))
    | none => []
  let requiresAll : Bool :=
    match options.requiresAllPermissions with
    | some val => val
    | none => true
  ⟨permissions, requiresAll⟩

/-- Claim C8: the extracted configuration is normalized, namely its permission
list is sorted and is, up to order, exactly the list of trimmed raw entries
with the entries that are empty after trimming dropped; RequiresAll is true
whenever the requires_all_permissions option is not set. -/
theorem c8_normalized_config (options : MethodOptionsModel) :
    List.Sorted stringLeRel (getMethodPermissionConfig options).Permissions ∧
    (getMethodPermissionConfig options).Permissions.Perm
      (((options.permissions.getD []).map trimSpace).filter
        (fun perm => perm ≠ "")) ∧
    (options.requiresAllPermissions = none →
      (getMethodPermissionConfig options).RequiresAll = true) := by
  cases options with
  | mk perms reqAll =>
    refine ⟨?_, ?_, ?_⟩
    · cases perms with
      | none => exact List.sorted_nil
      | some raw =>
        simpa [getMethodPermissionConfig] using
          List.sorted_insertionSort stringLeRel
            ((raw.map trimSpace).filter (fun perm => perm ≠ ""))
    · cases perms with
      | none => simp [getMethodPermissionConfig]
      | some raw =>
        simpa [getMethodPermissionConfig] using
          List.perm_insertionSort stringLeRel
            ((raw.map trimSpace).filter (fun perm => perm ≠ ""))
    · intro h
      simp only [Option.getD] at h ⊢
      simp [getMethodPermissionConfig, show reqAll = none from h]

/-- Witness for C8 at a concrete method-options value. -/
theorem c8_witness :
    (getMethodPermissionConfig ⟨some ["  b ", "", "a"], none⟩).RequiresAll
      = true ∧
    List.Sorted stringLeRel
      (getMethodPermissionConfig ⟨some ["  b ", "", "a"], none⟩).Permissions :=
  ⟨(c8_normalized_config ⟨some ["  b ", "", "a"], none⟩).2.2 rfl,
   (c8_normalized_config ⟨some ["  b ", "", "a"], none⟩).1⟩

end PermissionsBreaking

namespace RequiredFields

/-! ## Required-fields lint rules

Embedding of cmd/buf-plugin-required-fields/main.go. A message descriptor is
modelled by its name and the list of its declared field names; a file by the
list of its services, each service by the list of its method names. -/

def crudMethodPrefixes : List String := ["List", "Get", "Delete", "Update", "Create"]

def crudMethodWithoutFullEntityPrefixes : List String := ["List", "Get", "Delete"]

def defaultRequiredFields : List String := ["id", "name", "account_id", "created_at"]

def defaultRequiredRequestFields : List String := ["account_id"]

/-- A descriptor referenced by a validation error: either a message or one of
its fields. -/
inductive Descr where
  | messageDescr (name : String)
  | fieldDescr (name : String)
deriving DecidableEq

/-- ValidationError of main.go: the error message plus the descriptor where
the linting issue was found. -/
structure ValidationError where
  message : String
  descriptor : Descr
deriving DecidableEq

/-- The append-only loop inside missingFieldsValidator that collects the
required fields absent from the message, in the order of requiredFields. The
Go map from field name to bool is membership in the list of declared field
names. -/
def missingFieldNames (requiredFields : List String)
    (messageFields : List String) : List String :=
  requiredFields.foldl
    (fun missing requiredField =>
      if messageFields.contains requiredField then missing
      else missing ++ [requiredField]) []

/-- missingFieldsValidator of main.go, applied to a message name and its
declared field names. -/
def missingFieldsValidator (requiredFields : List String) (message : String)
    (messageFields : List String) : Option ValidationError :=
  let missing := missingFieldNames requiredFields messageFields
  if 0 < missing.length then
    some ⟨"message \"" ++ message ++ "\" is missing required fields: ["
      ++ String.intercalate " " missing ++ "]", Descr.messageDescr message⟩
  else none

/-- validateMessage of main.go: run every field-level validator on every
field, then every message-level validator once, collecting the errors in that
order. -/
def validateMessage (message : String) (fields : List String)
    (fieldValidators : List (String → Option ValidationError))
    (messageValidators : List (String → List String → Option ValidationError)) :
    List ValidationError :=
  (fields.map (fun field =>
    fieldValidators.filterMap (fun validator => validator field))).flatten
    ++ messageValidators.filterMap (fun validator => validator message fields)

/-- getRequiredEntityFields of main.go: the configured
required_entity_fields when non-empty, the built-in default otherwise. -/
def getRequiredEntityFields (requiredFieldsOptionValue : List String) :
    List String :=
  if 0 < requiredFieldsOptionValue.length then requiredFieldsOptionValue
  else defaultRequiredFields

/-- checkRequestFields of main.go: only messages whose name ends with
Request are considered, and the default request fields are required exactly
when the message name carries one of the List, Get, Delete prefixes. -/
def checkRequestFields (message : String) (fields : List String) :
    List ValidationError :=
  if strHasSuffix message "Request" then
    let requiredFields := crudMethodWithoutFullEntityPrefixes.foldl
      (fun required pre =>
        if strHasPrefix message pre then defaultRequiredRequestFields
        else required) []
    validateMessage message fields [] [missingFieldsValidator requiredFields]
  else []

theorem missingFieldNames_eq_filter (requiredFields messageFields : List String) :
    missingFieldNames requiredFields messageFields
      = requiredFields.filter (fun f => ! messageFields.contains f) := by
  have haux : ∀ (rs acc : List String),
      rs.foldl (fun missing f =>
        if messageFields.contains f then missing else missing ++ [f]) acc
        = acc ++ rs.filter (fun f => ! messageFields.contains f) := by
    intro rs
    induction rs with
    | nil => intro acc; simp
    | cons x xs ih =>
      intro acc
      rw [List.foldl_cons]
      by_cases hx : x ∈ messageFields
      · have hcx : messageFields.contains x = true := by simpa using hx
        rw [if_pos hcx, ih, List.filter_cons]
        simp [hx]
      · have hcx : ¬ messageFields.contains x = true := by simpa using hx
        rw [if_neg hcx, ih, List.filter_cons]
        simp [hx, List.append_assoc]
  simpa [missingFieldNames] using haux requiredFields []

/-- Claim C4: the missing-fields check reports nothing exactly when every
required name is a declared field name of the message, and otherwise reports
exactly the required names that are not declared, in the order of the
required list. -/
theorem c4_missing_fields_characterization (requiredFields : List String)
    (message : String) (messageFields : List String) :
    (missingFieldsValidator requiredFields message messageFields = none ↔
      ∀ f ∈ requiredFields, messageFields.contains f = true) ∧
    missingFieldNames requiredFields messageFields
      = requiredFields.filter (fun f => ! messageFields.contains f) ∧
    (missingFieldNames requiredFields messageFields ≠ [] →
      ∃ e, missingFieldsValidator requiredFields message messageFields = some e
        ∧ e.message = "message \"" ++ message
          ++ "\" is missing required fields: ["
          ++ String.intercalate " "
            (requiredFields.filter (fun f => ! messageFields.contains f))
          ++ "]") := by
  have hfil := missingFieldNames_eq_filter requiredFields messageFields
  refine ⟨?_, hfil, ?_⟩
  · constructor
    · intro h f hf
      by_cases hl : 0 < (missingFieldNames requiredFields messageFields).length
      · simp [missingFieldsValidator, hl] at h
      · have hnil : missingFieldNames requiredFields messageFields = [] := by
          rcases Nat.eq_zero_of_not_pos hl with h0
          exact List.length_eq_zero.mp h0
        rw [hfil] at hnil
        have := List.filter_eq_nil_iff.mp hnil f hf
        simpa using this
    · intro hall
      have hnil : missingFieldNames requiredFields messageFields = [] := by
        rw [hfil]
        exact List.filter_eq_nil_iff.mpr
          (fun a ha => by simpa using hall a ha)
      simp [missingFieldsValidator, hnil]
  · intro hne
    have hl : 0 < (missingFieldNames requiredFields messageFields).length :=
      List.length_pos.mpr hne
    refine ⟨⟨"message \"" ++ message ++ "\" is missing required fields: ["
        ++ String.intercalate " " (missingFieldNames requiredFields messageFields)
        ++ "]", Descr.messageDescr message⟩,
      by simp [missingFieldsValidator, hl], ?_⟩
    simp only [hfil]

/-- Witness for C4: a request message that declares account_id passes. -/
theorem c4_witness :
    missingFieldsValidator ["account_id"] "GetBookRequest" ["account_id"]
      = none :=
  (c4_missing_fields_characterization ["account_id"] "GetBookRequest"
    ["account_id"]).1.mpr (by decide)

/-- Claim C9 (amended): as long as the required-field list has no duplicate
entries, which holds for the built-in defaults, no field name occurs more
than once in the missing-fields report of a message. -/
theorem c9_no_duplicate_reports (requiredFields messageFields : List String)
    (name : String) (h : requiredFields.Nodup) :
    (missingFieldNames requiredFields messageFields).count name ≤ 1 := by
  rw [missingFieldNames_eq_filter]
  exact List.nodup_iff_count_le_one.mp (h.filter _) name

/-- Witness for C9 with the built-in default entity fields. -/
theorem c9_witness :
    (missingFieldNames defaultRequiredFields []).count "id" ≤ 1 :=
  c9_no_duplicate_reports defaultRequiredFields [] "id" (by decide)

/-- Counterexample for C9 as stated: a configured required-field list with a
duplicated entry makes the check report that field name twice for a message
missing it. -/
theorem c9_counterexample :
    missingFieldNames (getRequiredEntityFields ["id", "id"]) [] = ["id", "id"]
    ∧ (missingFieldNames (getRequiredEntityFields ["id", "id"]) []).count "id"
        = 2
    ∧ missingFieldsValidator (getRequiredEntityFields ["id", "id"]) "Book" []
        = some ⟨"message \"Book\" is missing required fields: [id id]",
            Descr.messageDescr "Book"⟩ := by
  refine ⟨by decide, by decide, by decide⟩

/-! ## Entity-name inference -/

/-- The loop of inferEntityFromMethodName of main.go over the ordered CRUD
prefix list: the first matching prefix is stripped and the remainder passed
to the singularization utility, whatever the prefix was. -/
def inferEntityAux (singular : String → String) (methodName : String) :
    List String → String
  | [] => ""
  | pre :: rest =>
    if strHasPrefix methodName pre then singular (strTrimPrefix methodName pre)
    else inferEntityAux singular methodName rest

/-- inferEntityFromMethodName of main.go, parameterized by the external
singularization capability (the pluralize client). -/
def inferEntityFromMethodName (singular : String → String)
    (methodName : String) : String :=
  inferEntityAux singular methodName crudMethodPrefixes

/-- The body of the nested loop of extractEntityNames: record the inferred
entity name unless it is empty (Go map insertion modelled by Finset
insertion). -/
def insertEntityName (singular : String → String) (entityNames : Finset String)
    (methodName : String) : Finset String :=
  let entityName := inferEntityFromMethodName singular methodName
  if entityName ≠ "" then insert entityName entityNames else entityNames

/-- extractEntityNames of main.go: the set of entity names inferred from all
method names of all services of a file. -/
def extractEntityNames (singular : String → String)
    (services : List (List String)) : Finset String :=
  services.foldl
    (fun entityNames methods => methods.foldl (insertEntityName singular)
      entityNames) ∅

/-- Modelled from the spec: the external singularization utility
(github.com/gertd/go-pluralize behind a single-method interface, spec section
9), which the repository does not vendor. The spec fixes the behaviour only
through the examples Books to Book and Categories to Category, which this
model reproduces; every theorem quantified over the singular function is
independent of this model. -/
def modelSingular (s : String) : String :=
  if strHasSuffix s "ies" then
    String.mk (s.data.take (s.data.length - 3) ++ ['y'])
  else if strHasSuffix s "s" then
    String.mk (s.data.take (s.data.length - 1))
  else s

theorem inferEntityAux_no_match (singular : String → String)
    (methodName : String) (ps : List String)
    (h : ∀ pre ∈ ps, strHasPrefix methodName pre = false) :
    inferEntityAux singular methodName ps = "" := by
  induction ps with
  | nil => rfl
  | cons p rest ih =>
    have hp : ¬ strHasPrefix methodName p = true := by
      simp [h p (List.mem_cons_self p rest)]
    rw [inferEntityAux, if_neg hp]
    exact ih (fun q hq => h q (List.mem_cons_of_mem p hq))

theorem inferEntityAux_unique_match (singular : String → String)
    (methodName pre : String) (ps : List String) (hmem : pre ∈ ps)
    (hm : strHasPrefix methodName pre = true)
    (huniq : ∀ q ∈ ps, strHasPrefix methodName q = true → q = pre) :
    inferEntityAux singular methodName ps
      = singular (strTrimPrefix methodName pre) := by
  induction ps with
  | nil => simp at hmem
  | cons p rest ih =>
    by_cases hp : strHasPrefix methodName p = true
    · have : p = pre := huniq p (List.mem_cons_self p rest) hp
      subst this
      rw [inferEntityAux, if_pos hp]
    · have hpre : pre ∈ rest := by
        rcases List.mem_cons.mp hmem with rfl | h
        · exact absurd hm hp
        · exact h
      rw [inferEntityAux, if_neg hp]
      exact ih hpre (fun q hq => huniq q (List.mem_cons_of_mem p hq))

theorem mem_foldl_insertEntityName (singular : String → String)
    (methods : List String) :
    ∀ (acc : Finset String) (e : String),
      e ∈ methods.foldl (insertEntityName singular) acc ↔
        e ∈ acc ∨ (e ≠ "" ∧ ∃ m ∈ methods,
          inferEntityFromMethodName singular m = e) := by
  induction methods with
  | nil => intro acc e; simp
  | cons m ms ih =>
    intro acc e
    rw [List.foldl_cons, ih]
    unfold insertEntityName
    by_cases h : inferEntityFromMethodName singular m ≠ ""
    · rw [if_pos h]
      simp only [Finset.mem_insert, List.mem_cons]
      constructor
      · rintro ((rfl | ha) | ⟨hne, m', hm', he⟩)
        · exact Or.inr ⟨h, m, Or.inl rfl, rfl⟩
        · exact Or.inl ha
        · exact Or.inr ⟨hne, m', Or.inr hm', he⟩
      · rintro (ha | ⟨hne, m', (rfl | hm'), he⟩)
        · exact Or.inl (Or.inr ha)
        · exact Or.inl (Or.inl he.symm)
        · exact Or.inr ⟨hne, m', hm', he⟩
    · rw [if_neg h]
      push_neg at h
      simp only [List.mem_cons]
      constructor
      · rintro (ha | ⟨hne, m', hm', he⟩)
        · exact Or.inl ha
        · exact Or.inr ⟨hne, m', Or.inr hm', he⟩
      · rintro (ha | ⟨hne, m', (rfl | hm'), he⟩)
        · exact Or.inl ha
        · exact absurd (he ▸ h) hne
        · exact Or.inr ⟨hne, m', hm', he⟩

theorem mem_extractEntityNames_aux (singular : String → String)
    (services : List (List String)) :
    ∀ (acc : Finset String) (e : String),
      e ∈ services.foldl
        (fun entityNames methods =>
          methods.foldl (insertEntityName singular) entityNames) acc ↔
        e ∈ acc ∨ (e ≠ "" ∧ ∃ ms ∈ services, ∃ m ∈ ms,
          inferEntityFromMethodName singular m = e) := by
  induction services with
  | nil => intro acc e; simp
  | cons ms rest ih =>
    intro acc e
    rw [List.foldl_cons, ih, mem_foldl_insertEntityName]
    simp only [List.mem_cons]
    constructor
    · rintro ((ha | ⟨hne, m, hm, he⟩) | ⟨hne, ms', hms', m, hm, he⟩)
      · exact Or.inl ha
      · exact Or.inr ⟨hne, ms, Or.inl rfl, m, hm, he⟩
      · exact Or.inr ⟨hne, ms', Or.inr hms', m, hm, he⟩
    · rintro (ha | ⟨hne, ms', (rfl | hms'), m, hm, he⟩)
      · exact Or.inl (Or.inl ha)
      · exact Or.inl (Or.inr ⟨hne, m, hm, he⟩)
      · exact Or.inr ⟨hne, ms', hms', m, hm, he⟩

/-- Claim C5 (amended): entity-name inference tests the ordered CRUD prefix
list with first match winning (the hypothesis that only one prefix of the
list matches always holds, since the five prefixes start with distinct
letters), strips the matched prefix and singularizes the remainder for every
matched prefix, Create and Update included; a method matching no prefix
contributes nothing, and the names collected over the services of a file form
a set, so duplicates collapse. -/
theorem c5_entity_inference (singular : String → String) :
    (∀ methodName : String,
      (∀ pre ∈ crudMethodPrefixes, strHasPrefix methodName pre = false) →
      inferEntityFromMethodName singular methodName = "") ∧
    (∀ methodName pre, pre ∈ crudMethodPrefixes →
      strHasPrefix methodName pre = true →
      (∀ q ∈ crudMethodPrefixes, strHasPrefix methodName q = true → q = pre) →
      inferEntityFromMethodName singular methodName
        = singular (strTrimPrefix methodName pre)) ∧
    (∀ (services : List (List String)) (entityName : String),
      entityName ∈ extractEntityNames singular services ↔
        entityName ≠ "" ∧ ∃ methods ∈ services, ∃ methodName ∈ methods,
          inferEntityFromMethodName singular methodName = entityName) := by
  refine ⟨?_, ?_, ?_⟩
  · intro methodName h
    exact inferEntityAux_no_match singular methodName crudMethodPrefixes h
  · intro methodName pre hmem hm huniq
    exact inferEntityAux_unique_match singular methodName pre
      crudMethodPrefixes hmem hm huniq
  · intro services entityName
    rw [extractEntityNames, mem_extractEntityNames_aux]
    simp

/-- Witness for C5: ListBooks yields the singular of Books. -/
theorem c5_witness :
    inferEntityFromMethodName modelSingular "ListBooks" = "Book" := by
  have h := (c5_entity_inference modelSingular).2.1 "ListBooks" "List"
    (by decide) (by decide) (by decide)
  rw [h]
  decide

/-- Counterexample for C5 as stated: a Create-prefixed method name does not
keep its remainder as written; the remainder Books is singularized to Book
exactly as for the collection prefixes. -/
theorem c5_counterexample :
    strTrimPrefix "CreateBooks" "Create" = "Books" ∧
    inferEntityFromMethodName modelSingular "CreateBooks" = "Book" ∧
    ("Book" : String) ≠ "Books" := by
  refine ⟨by decide, by decide, by decide⟩

/-! ## The request-fields rule and the owning method -/

theorem foldl_if_any {α : Type} (g : α → Bool) (c : List String) :
    ∀ (ps : List α) (acc : List String),
      ps.foldl (fun r p => if g p then c else r) acc
        = if ps.any g then c else acc := by
  intro ps
  induction ps with
  | nil => intro acc; simp
  | cons p rest ih =>
    intro acc
    rw [List.foldl_cons]
    by_cases h : g p = true
    · rw [if_pos h, ih, List.any_cons]
      simp [h, ite_self]
    · rw [if_neg h, ih, List.any_cons]
      simp [h]

/-- The claim C6 condition as the spec words it: the account_id requirement
applies when the message name ends with Request and the name of the owning
RPC method starts with List, Get or Delete. Stated as its own definition so
it can be compared with checkRequestFields, which receives only the message
and never consults any method. -/
def claimCheckRequestFields (owningMethodName message : String)
    (fields : List String) : List ValidationError :=
  if strHasSuffix message "Request" = true ∧
      crudMethodWithoutFullEntityPrefixes.any
        (fun pre => strHasPrefix owningMethodName pre) = true then
    validateMessage message fields []
      [missingFieldsValidator defaultRequiredRequestFields]
  else []

/-- Claim C6 (amended): the request rule keys on the message name alone: a
message not ending in Request is never checked; a Request-suffixed message
whose own name carries none of the List, Get, Delete prefixes (for instance a
Create- or Update-prefixed request) yields no annotation whatever its fields;
and a Request-suffixed message carrying one of those prefixes passes exactly
when it declares account_id. -/
theorem c6_request_fields_by_message_name (message : String)
    (fields : List String) :
    (strHasSuffix message "Request" = false →
      checkRequestFields message fields = []) ∧
    (strHasSuffix message "Request" = true →
      crudMethodWithoutFullEntityPrefixes.any
        (fun pre => strHasPrefix message pre) = false →
      checkRequestFields message fields = []) ∧
    (strHasSuffix message "Request" = true →
      crudMethodWithoutFullEntityPrefixes.any
        (fun pre => strHasPrefix message pre) = true →
      (checkRequestFields message fields = [] ↔
        fields.contains "account_id" = true)) := by
  have hreq := foldl_if_any (fun pre => strHasPrefix message pre)
    defaultRequiredRequestFields crudMethodWithoutFullEntityPrefixes []
  refine ⟨?_, ?_, ?_⟩
  · intro h
    simp [checkRequestFields, h]
  · intro hs hany
    rw [checkRequestFields, if_pos hs]
    simp only [hreq, hany, Bool.false_eq_true, if_false]
    simp [validateMessage, missingFieldsValidator, missingFieldNames]
  · intro hs hany
    rw [checkRequestFields, if_pos hs]
    simp only [hreq, hany, if_true]
    have hmf := missingFieldNames_eq_filter defaultRequiredRequestFields fields
    by_cases hacc : "account_id" ∈ fields
    · have : missingFieldNames defaultRequiredRequestFields fields = [] := by
        rw [hmf]
        simp [defaultRequiredRequestFields, List.filter_cons, hacc]
      simp [validateMessage, missingFieldsValidator, this, hacc]
    · have : missingFieldNames defaultRequiredRequestFields fields
          = ["account_id"] := by
        rw [hmf]
        simp [defaultRequiredRequestFields, List.filter_cons, hacc]
      simp [validateMessage, missingFieldsValidator, this, hacc]

/-- Witness for C6: a Get-prefixed request message with account_id passes. -/
theorem c6_witness :
    checkRequestFields "GetBookRequest" ["account_id"] = [] :=
  ((c6_request_fields_by_message_name "GetBookRequest" ["account_id"]).2.2
    (by decide) (by decide)).mpr (by decide)

/-- Counterexample for C6 as stated: the rule never sees the owning method.
A message named ListBooksRequest is checked (and fails for a missing
account_id) even when its owning RPC method is CreateBook, although the
claim, keyed on the owning method name with its Create prefix, predicts an
exemption. -/
theorem c6_counterexample :
    checkRequestFields "ListBooksRequest" []
      = [⟨"message \"ListBooksRequest\" is missing required fields: "
          ++ "[account_id]", Descr.messageDescr "ListBooksRequest"⟩] ∧
    claimCheckRequestFields "CreateBook" "ListBooksRequest" [] = [] := by
  refine ⟨by decide, by decide⟩

end RequiredFields

namespace MethodOptionsPlugin

/-! ## Required method options

Embedding of checkMethodOptions (the variant with the requires_authentication
waiver and the permissions and account_id_expression conflict check). A
method descriptor is modelled by its full name together with the presence and
typed value of each custom option the check reads. -/

/-- The custom options of a method descriptor read by checkMethodOptions. A
field holds none exactly when proto.HasExtension is false for that option;
the google.api.http option is only ever tested for presence. -/
structure MethodOptionsDescr where
  permissions : Option (List String)
  requiresAuthentication : Option Bool
  accountIdExpression : Option String
  hasHttp : Bool

/-- The two extensions of the static extension registry. -/
inductive ExtensionInfo where
  | permissionsExt
  | httpExt
deriving DecidableEq

def extensionFullName : ExtensionInfo → String
  | ExtensionInfo.permissionsExt => "qdrant.cloud.common.v1.permissions"
  | ExtensionInfo.httpExt => "google.api.http"

/-- extensionRegistry of main.go: the compile-time map from option key to
extension. -/
def extensionRegistry (key : String) : Option ExtensionInfo :=
  if key = "qdrant.cloud.common.v1.permissions" then
    some ExtensionInfo.permissionsExt
  else if key = "google.api.http" then some ExtensionInfo.httpExt
  else none

/-- requiredMethodOptionExtensions of main.go: the default required keys, in
order. -/
def requiredMethodOptionExtensions : List String :=
  ["qdrant.cloud.common.v1.permissions", "google.api.http"]

/-- proto.HasExtension for the two registry extensions. -/
def hasExtension (options : MethodOptionsDescr) : ExtensionInfo → Bool
  | ExtensionInfo.permissionsExt => options.permissions.isSome
  | ExtensionInfo.httpExt => options.hasHttp

/-- An annotation handed to the response writer: its message, and the full
name of the method descriptor when one is attached (the unknown-key
annotation is emitted without a descriptor, hence without a location). -/
structure Annot where
  message : String
  descriptor : Option String
deriving DecidableEq

def mkUnknownKeyAnnot (key : String) : Annot :=
  ⟨"extension key \"" ++ key ++ "\" does not exist", none⟩

def mkMissingOptionAnnot (methodName optionName : String) : Annot :=
  ⟨"Method \"" ++ methodName ++ "\" does not define the \"" ++ optionName
    ++ "\" option", some methodName⟩

def mkConflictAnnot (methodName : String) : Annot :=
  ⟨"Method \"" ++ methodName ++ "\" has permissions set but "
    ++ "account_id_expression is empty. Methods with permissions require a "
    ++ "non-empty account_id_expression since permissions are checked in the "
    ++ "scope of the account", some methodName⟩

/-- The loop over the required option keys of checkMethodOptions. The second
component records the early return of the source on an unknown key (which
abandons the whole remaining check, conflict check included); the break on
the requires_authentication waiver only exits the loop. -/
def checkOptionsLoop (methodName : String) (options : MethodOptionsDescr) :
    List String → List Annot × Bool
  | [] => ([], false)
  | extensionKey :: rest =>
    match extensionRegistry extensionKey with
    | none => ([mkUnknownKeyAnnot extensionKey], true)
    | some extension =>
      if hasExtension options extension then
        checkOptionsLoop methodName options rest
      else
        let waive : Bool :=
          extensionKey == "qdrant.cloud.common.v1.permissions" &&
            (match options.requiresAuthentication with
             | some val => ! val
             | none => false)
        if waive then ([], false)
        else
          let next := checkOptionsLoop methodName options rest
          (mkMissingOptionAnnot methodName (extensionFullName extension)
            :: next.1, next.2)

/-- The permissions and account_id_expression conflict check that follows the
loop in checkMethodOptions. -/
def conflictAnnots (methodName : String) (options : MethodOptionsDescr) :
    List Annot :=
  match options.permissions, options.accountIdExpression with
  | some permissionsExpression, some accountIdExpression =>
    let permissions := permissionsExpression.filter (fun perm => perm ≠ "")
    if 0 < permissions.length ∧ accountIdExpression = "" then
      [mkConflictAnnot methodName]
    else []
  | _, _ => []

/-- checkMethodOptions of main.go: the configured required_method_options
keys when non-empty, the built-in default otherwise; then the loop, then,
unless the loop returned early on an unknown key, the conflict check. -/
def checkMethodOptions (methodName : String) (configuredOptions : List String)
    (options : MethodOptionsDescr) : List Annot :=
  let requiredOptions :=
    if 0 < configuredOptions.length then configuredOptions
    else requiredMethodOptionExtensions
  let result := checkOptionsLoop methodName options requiredOptions
  if result.2 then result.1
  else result.1 ++ conflictAnnots methodName options

/-- The annotations the loop produces while scanning a run of keys that are
all in the registry and trigger no exit: one missing-option annotation per
key whose extension is absent from the method options, in scan order. -/
def expectedMissingAnnots (methodName : String) (options : MethodOptionsDescr)
    (keys : List String) : List Annot :=
  keys.filterMap (fun key =>
    match extensionRegistry key with
    | some extension =>
      if hasExtension options extension then none
      else some (mkMissingOptionAnnot methodName (extensionFullName extension))
    | none => none)

theorem mem_expectedMissingAnnots (methodName : String)
    (options : MethodOptionsDescr) (keys : List String) (a : Annot)
    (ha : a ∈ expectedMissingAnnots methodName options keys) :
    a.descriptor = some methodName := by
  obtain ⟨p, hp, hf⟩ := List.mem_filterMap.mp ha
  cases hreg : extensionRegistry p with
  | none => rw [hreg] at hf; simp at hf
  | some ext =>
    rw [hreg] at hf
    by_cases hhe : hasExtension options ext = true
    · simp [hhe] at hf
    · simp only [Bool.not_eq_true] at hhe
      simp only [hhe, Bool.false_eq_true, if_false, Option.some.injEq] at hf
      rw [← hf]
      rfl

theorem checkOptionsLoop_append_known (methodName : String)
    (options : MethodOptionsDescr) (keys tail : List String)
    (hknown : ∀ p ∈ keys, extensionRegistry p ≠ none)
    (hnb : ¬ ("qdrant.cloud.common.v1.permissions" ∈ keys ∧
        options.permissions = none ∧
        options.requiresAuthentication = some false)) :
    checkOptionsLoop methodName options (keys ++ tail)
      = (expectedMissingAnnots methodName options keys
          ++ (checkOptionsLoop methodName options tail).1,
        (checkOptionsLoop methodName options tail).2) := by
  induction keys with
  | nil => simp [expectedMissingAnnots]
  | cons p ps ih =>
    obtain ⟨ext, hext⟩ :=
      Option.ne_none_iff_exists'.mp (hknown p (List.mem_cons_self p ps))
    have hknown' : ∀ q ∈ ps, extensionRegistry q ≠ none := fun q hq =>
      hknown q (List.mem_cons_of_mem p hq)
    have hnb' : ¬ ("qdrant.cloud.common.v1.permissions" ∈ ps ∧
        options.permissions = none ∧
        options.requiresAuthentication = some false) := fun h =>
      hnb ⟨List.mem_cons_of_mem p h.1, h.2⟩
    rw [List.cons_append]
    by_cases hhe : hasExtension options ext = true
    · simp only [checkOptionsLoop, hext]
      rw [if_pos hhe, ih hknown' hnb']
      simp [expectedMissingAnnots, List.filterMap_cons, hext, hhe]
    · by_cases hp : p = "qdrant.cloud.common.v1.permissions"
      · subst hp
        have hx : ExtensionInfo.permissionsExt = ext := by
          injection (rfl : extensionRegistry "qdrant.cloud.common.v1.permissions"
            = some ExtensionInfo.permissionsExt).symm.trans hext
        have hpn : options.permissions = none := by
          have := hhe
          rw [← hx] at this
          simpa [hasExtension, Option.not_isSome_iff_eq_none] using this
        cases hra : options.requiresAuthentication with
        | none =>
          simp only [checkOptionsLoop, hext, if_neg hhe, hra, beq_self_eq_true,
            Bool.true_and, Bool.false_eq_true, if_false]
          rw [ih hknown' hnb']
          simp [expectedMissingAnnots, List.filterMap_cons, hext, hhe]
        | some val =>
          cases val with
          | true =>
            simp only [checkOptionsLoop, hext, if_neg hhe, hra,
              beq_self_eq_true, Bool.true_and, Bool.not_true,
              Bool.false_eq_true, if_false]
            rw [ih hknown' hnb']
            simp [expectedMissingAnnots, List.filterMap_cons, hext, hhe]
          | false =>
            exact absurd ⟨List.mem_cons_self _ _, hpn, hra⟩ hnb
      · have hbeq : (p == "qdrant.cloud.common.v1.permissions") = false := by
          simp [hp]
        simp only [checkOptionsLoop, hext, if_neg hhe, hbeq, Bool.false_and,
          Bool.false_eq_true, if_false]
        rw [ih hknown' hnb']
        simp [expectedMissingAnnots, List.filterMap_cons, hext, hhe]

theorem checkOptionsLoop_break (methodName : String)
    (options : MethodOptionsDescr) (hperm : options.permissions = none)
    (hauth : options.requiresAuthentication = some false) :
    ∀ keys tail : List String,
      (∀ p ∈ keys, extensionRegistry p ≠ none) →
      "qdrant.cloud.common.v1.permissions" ∈ keys →
      (checkOptionsLoop methodName options (keys ++ tail)).2 = false ∧
      ∀ a ∈ (checkOptionsLoop methodName options (keys ++ tail)).1,
        a.descriptor = some methodName := by
  intro keys
  induction keys with
  | nil => intro tail _ hmem; simp at hmem
  | cons p ps ih =>
    intro tail hknown hmem
    obtain ⟨ext, hext⟩ :=
      Option.ne_none_iff_exists'.mp (hknown p (List.mem_cons_self p ps))
    have hknown' : ∀ q ∈ ps, extensionRegistry q ≠ none := fun q hq =>
      hknown q (List.mem_cons_of_mem p hq)
    rw [List.cons_append]
    by_cases hp : p = "qdrant.cloud.common.v1.permissions"
    · subst hp
      have hx : ExtensionInfo.permissionsExt = ext := by
        injection (rfl : extensionRegistry "qdrant.cloud.common.v1.permissions"
          = some ExtensionInfo.permissionsExt).symm.trans hext
      have hhe : ¬ hasExtension options ext = true := by
        rw [← hx]
        simp [hasExtension, hperm]
      simp [checkOptionsLoop, hext, if_neg hhe, hauth]
    · have hmem' : "qdrant.cloud.common.v1.permissions" ∈ ps := by
        rcases List.mem_cons.mp hmem with h | h
        · exact absurd h.symm hp
        · exact h
      have hbeq : (p == "qdrant.cloud.common.v1.permissions") = false := by
        simp [hp]
      obtain ⟨ih1, ih2⟩ := ih tail hknown' hmem'
      by_cases hhe : hasExtension options ext = true
      · simp only [checkOptionsLoop, hext]
        rw [if_pos hhe]
        exact ⟨ih1, ih2⟩
      · simp only [checkOptionsLoop, hext, if_neg hhe, hbeq, Bool.false_and,
          Bool.false_eq_true, if_false]
        refine ⟨ih1, ?_⟩
        intro a ha
        rcases List.mem_cons.mp ha with rfl | ha'
        · rfl
        · exact ih2 a ha'

/-- Claim C7 (amended): scanning the configured keys in order, the first key
absent from the static registry that the scan reaches yields a single
annotation naming the key, carrying no location, and the whole remaining
check for the method stops there: the earlier (registered) keys are checked
normally and keep their missing-option annotations, but no later key, known
or unknown, is examined and the conflict check is skipped. When the
requires_authentication waiver exits the loop at the missing permissions key
before the unknown key is reached, no unknown-key annotation is emitted at
all. -/
theorem c7_unknown_key_aborts_method (methodName k : String)
    (pfx rest : List String) (options : MethodOptionsDescr)
    (hpfx : ∀ p ∈ pfx, extensionRegistry p ≠ none)
    (hk : extensionRegistry k = none) :
    (¬ ("qdrant.cloud.common.v1.permissions" ∈ pfx ∧
        options.permissions = none ∧
        options.requiresAuthentication = some false) →
      checkMethodOptions methodName (pfx ++ k :: rest) options
        = expectedMissingAnnots methodName options pfx
          ++ [mkUnknownKeyAnnot k]) ∧
    (("qdrant.cloud.common.v1.permissions" ∈ pfx ∧
        options.permissions = none ∧
        options.requiresAuthentication = some false) →
      mkUnknownKeyAnnot k ∉
        checkMethodOptions methodName (pfx ++ k :: rest) options) ∧
    (mkUnknownKeyAnnot k).descriptor = none := by
  have hlen : 0 < (pfx ++ k :: rest).length := by
    simp [List.length_append]
  refine ⟨?_, ?_, rfl⟩
  · intro hnb
    have hA := checkOptionsLoop_append_known methodName options pfx (k :: rest)
      hpfx hnb
    have hkloop : checkOptionsLoop methodName options (k :: rest)
        = ([mkUnknownKeyAnnot k], true) := by
      simp [checkOptionsLoop, hk]
    rw [hkloop] at hA
    simp [checkMethodOptions, hlen, hA]
  · rintro ⟨hmem, hpn, hra⟩
    obtain ⟨hsnd, hdescr⟩ := checkOptionsLoop_break methodName options hpn hra
      pfx (k :: rest) hpfx hmem
    intro hin
    have hconf : conflictAnnots methodName options = [] := by
      simp [conflictAnnots, hpn]
    rw [checkMethodOptions] at hin
    simp only [hlen, if_pos, hsnd, Bool.false_eq_true, if_false, hconf,
      List.append_nil] at hin
    have := hdescr _ hin
    simp [mkUnknownKeyAnnot] at this

/-- Witness for C7, using the configuration the repository tests: the known
permissions key (missing from the method) is annotated first, then the
unknown key is annotated without a location and the check stops. -/
theorem c7_witness :
    checkMethodOptions "simple.GreeterService.HelloWorld"
      ["qdrant.cloud.common.v1.permissions", "unknown.extension"]
      ⟨none, none, none, false⟩
      = [mkMissingOptionAnnot "simple.GreeterService.HelloWorld"
          "qdrant.cloud.common.v1.permissions",
         mkUnknownKeyAnnot "unknown.extension"] := by
  have h := (c7_unknown_key_aborts_method "simple.GreeterService.HelloWorld"
    "unknown.extension" ["qdrant.cloud.common.v1.permissions"] []
    ⟨none, none, none, false⟩ (by decide) (by decide)).1 (by decide)
  exact h.trans (by decide)

/-- Counterexample for C7 as stated: with two unknown configured keys only
the first yields an annotation; the check does not continue to the second
key, which the claim predicts would yield its own annotation. -/
theorem c7_counterexample :
    checkMethodOptions "simple.GreeterService.HelloWorld"
      ["unknown.a", "unknown.b"] ⟨none, none, none, false⟩
      = [mkUnknownKeyAnnot "unknown.a"] ∧
    mkUnknownKeyAnnot "unknown.b" ∉
      checkMethodOptions "simple.GreeterService.HelloWorld"
        ["unknown.a", "unknown.b"] ⟨none, none, none, false⟩ := by
  refine ⟨by decide, by decide⟩

/-- Claim C10: when the permissions option is missing and the method sets
requires_authentication explicitly to false, the loop is exited entirely, so
no required option listed after the permissions key is checked for that
method, whatever follows it; with the permissions option absent the conflict
check after the loop cannot fire either, so no annotation at all is emitted.
The second conjunct instantiates this for the built-in default list, where
google.api.http follows the permissions key. -/
theorem c10_auth_waiver_skips_rest (methodName : String) (rest : List String)
    (options : MethodOptionsDescr) (hperm : options.permissions = none)
    (hauth : options.requiresAuthentication = some false) :
    checkMethodOptions methodName
      ("qdrant.cloud.common.v1.permissions" :: rest) options = [] ∧
    checkMethodOptions methodName [] options = [] := by
  have hloop : ∀ rest' : List String,
      checkOptionsLoop methodName options
        ("qdrant.cloud.common.v1.permissions" :: rest') = ([], false) := by
    intro rest'
    simp [checkOptionsLoop, extensionRegistry, hasExtension, hperm, hauth]
  have hconf : conflictAnnots methodName options = [] := by
    simp [conflictAnnots, hperm]
  constructor
  · simp [checkMethodOptions, hloop, hconf]
  · simp [checkMethodOptions, requiredMethodOptionExtensions, hloop, hconf]

/-- Witness for C10: the http binding is missing but not reported, because
the waiver exits the loop before reaching the google.api.http key. -/
theorem c10_witness :
    checkMethodOptions "test.TestService.TestMethod"
      ["qdrant.cloud.common.v1.permissions", "google.api.http"]
      ⟨none, some false, none, false⟩ = [] :=
  (c10_auth_waiver_skips_rest "test.TestService.TestMethod"
    ["google.api.http"] ⟨none, some false, none, false⟩ rfl rfl).1

end MethodOptionsPlugin
